import Mathlib

/-!
Verification of the content-extraction and validation pipeline of the
Canvas AI Assistant chrome extension (src/chrome_extension/content.js).

Strings are modelled as `List Char`.  JavaScript string primitives used by
the source (`trim`, `split(/\s+/)`, `replace(/\s+/g, ' ')`,
`replace(/\n\s*\n/g, '\n')`, `includes`, `substring`, `toLowerCase`,
regular-expression tests) are embedded as executable Lean functions below,
and the pipeline functions keep the names they have in the source.
-/

/-- JavaScript whitespace class `\s` restricted to the ASCII characters that
occur in this development: space, tab, newline, carriage return, vertical
tab and form feed. -/
def isWS (c : Char) : Bool :=
  c = ' ' || c = '\t' || c = '\n' || c = '\r' || c = '\x0b' || c = '\x0c'

/-- ASCII model of JavaScript `String.prototype.toLowerCase`, mapping each
upper-case Latin letter to its lower-case form and leaving every other
character unchanged. -/
def jsToLower (c : Char) : Char :=
  if c = 'A' then 'a' else if c = 'B' then 'b' else if c = 'C' then 'c'
  else if c = 'D' then 'd' else if c = 'E' then 'e' else if c = 'F' then 'f'
  else if c = 'G' then 'g' else if c = 'H' then 'h' else if c = 'I' then 'i'
  else if c = 'J' then 'j' else if c = 'K' then 'k' else if c = 'L' then 'l'
  else if c = 'M' then 'm' else if c = 'N' then 'n' else if c = 'O' then 'o'
  else if c = 'P' then 'p' else if c = 'Q' then 'q' else if c = 'R' then 'r'
  else if c = 'S' then 's' else if c = 'T' then 't' else if c = 'U' then 'u'
  else if c = 'V' then 'v' else if c = 'W' then 'w' else if c = 'X' then 'x'
  else if c = 'Y' then 'y' else if c = 'Z' then 'z' else c

/-- JavaScript `String.prototype.trim`: drop leading and trailing
whitespace. -/
def trimWS (l : List Char) : List Char :=
  ((l.dropWhile isWS).reverse.dropWhile isWS).reverse

/-- JavaScript `String.prototype.includes`: `listContains sub l` is true
when `sub` occurs in `l` as a contiguous segment. -/
def listContains (sub : List Char) : List Char → Bool
  | [] => sub.isEmpty
  | l@(_ :: cs) => sub.isPrefixOf l || listContains sub cs

/-- `text.replace(/\s+/g, ' ')` (content.js lines 433 and 1611): every
maximal run of whitespace is replaced by a single space.  The single space
is emitted when the run ends (next character not whitespace, or end of
input). -/
def collapseWS : List Char → List Char
  | [] => []
  | c :: cs =>
    if isWS c then
      match cs with
      | [] => [' ']
      | d :: _ => if isWS d then collapseWS cs else ' ' :: collapseWS cs
    else c :: collapseWS cs

/-- Index of the last newline in a list, if any. -/
def lastNLIndex : List Char → Option Nat
  | [] => none
  | c :: cs =>
    match lastNLIndex cs with
    | some j => some (j + 1)
    | none => if c = '\n' then some 0 else none

/-- Fuel-indexed scanner for `text.replace(/\n\s*\n/g, '\n')` (content.js
lines 434 and 1612).  At a newline, the greedy-with-backtracking `\s*`
followed by `\n` matches through the last newline of the whitespace run
that follows; the whole match is replaced by a single newline and scanning
resumes after it.  Each step consumes at least one input character, so fuel
equal to the input length makes the scanner total and faithful. -/
def replaceNNGo : Nat → List Char → List Char
  | _, [] => []
  | 0, l => l
  | n + 1, c :: cs =>
    if c = '\n' then
      match lastNLIndex (cs.takeWhile isWS) with
      | some j => '\n' :: replaceNNGo n (cs.drop (j + 1))
      | none => c :: replaceNNGo n cs
    else c :: replaceNNGo n cs

/-- `text.replace(/\n\s*\n/g, '\n')` on the whole input. -/
def replaceNN (l : List Char) : List Char :=
  replaceNNGo l.length l

/-- `cleanTextContent` (content.js lines 1607-1614): guard against a falsy
argument, then `.replace(/\s+/g, ' ').replace(/\n\s*\n/g, '\n').trim()`. -/
def cleanTextContent (text : List Char) : List Char :=
  if text = [] then []
  else trimWS (replaceNN (collapseWS text))

/-- The whitespace-delimited words of a list: maximal runs of
non-whitespace characters, in order.  This is the non-empty output of
JavaScript `text.split(/\s+/)`. -/
def jsWords : List Char → List (List Char)
  | [] => []
  | c :: cs =>
    if isWS c then jsWords cs
    else
      match cs with
      | [] => [[c]]
      | d :: _ =>
        if isWS d then [c] :: jsWords cs
        else
          match jsWords cs with
          | [] => [[c]]
          | w :: ws => (c :: w) :: ws

/-- Join words with single spaces. -/
def joinSpace : List (List Char) → List Char
  | [] => []
  | [w] => w
  | w :: ws => w ++ ' ' :: joinSpace ws

/-- Modelled from the spec (section 4.4), for comparison with
`cleanTextContent`: collapse each maximal whitespace run to a single space,
EXCEPT that a run containing two or more newlines becomes exactly one
newline; then trim.  Fuel-indexed; each step consumes at least one
character, so fuel equal to the input length suffices. -/
def specCollapseGo : Nat → List Char → List Char
  | _, [] => []
  | 0, l => l
  | n + 1, c :: cs =>
    if isWS c then
      let run := c :: cs.takeWhile isWS
      (if 2 ≤ (run.filter (fun d => d = '\n')).length then '\n' else ' ') ::
        specCollapseGo n (cs.dropWhile isWS)
    else c :: specCollapseGo n cs

/-- Modelled from the spec (section 4.4): the normalizer as the spec
describes it, paragraph boundaries preserved as one newline. -/
def specNormalize (l : List Char) : List Char :=
  trimWS (specCollapseGo l.length l)





/-- Helper for the regex `/error.*occurred/i`: after a gap of
non-line-terminator characters, `b` occurs (`.` in a JavaScript regex does
not match a line terminator). -/
def gapThen (b : List Char) : List Char → Bool
  | [] => b.isPrefixOf ([] : List Char)
  | l@(c :: cs) =>
    b.isPrefixOf l ||
      (if c = '\n' || c = '\r' then false else gapThen b cs)

/-- Test of the regex `a.*b` (single line, no anchors): somewhere in the
input, `a` occurs, followed by a newline-free gap, followed by `b`. -/
def findThenGap (a b : List Char) : List Char → Bool
  | [] => false
  | l@(_ :: cs) =>
    (a.isPrefixOf l && gapThen b (l.drop a.length)) || findThenGap a b cs

/-- Test of the regex `^[\s\n]*w[\s\n]*$` for a non-empty word `w` with no
whitespace in it: the input is optional whitespace, then `w`, then optional
whitespace. -/
def wsWordWS (w : List Char) (l : List Char) : Bool :=
  let l1 := l.dropWhile isWS
  w.isPrefixOf l1 && (l1.drop w.length).all isWS

/-- The hard reject patterns of `isValidContent` (content.js lines
1445-1464), in source order, applied to the lower-cased content.  All but
three are case-insensitive literal substring tests; `/error.*occurred/i`
needs a newline-free gap, and the two anchored patterns require the whole
input to be whitespace around one word.  `/^[\s\n]*$/` is the
only-whitespace test. -/
def rejectMatch (low : List Char) : Bool :=
  listContains ("you need to have javascript enabled".toList) low ||
  listContains ("javascript is disabled".toList) low ||
  listContains ("enable javascript".toList) low ||
  listContains ("javascript required".toList) low ||
  listContains ("javascript must be enabled".toList) low ||
  listContains ("browser does not support javascript".toList) low ||
  listContains ("this page requires javascript".toList) low ||
  listContains ("please enable javascript".toList) low ||
  findThenGap ("error".toList) ("occurred".toList) low ||
  listContains ("page not found".toList) low ||
  listContains ("access denied".toList) low ||
  listContains ("unauthorized".toList) low ||
  listContains ("loading...".toList) low ||
  listContains ("please wait".toList) low ||
  low.all isWS ||
  wsWordWS ("loading".toList) low ||
  wsWordWS ("error".toList) low ||
  listContains ("content could not be extracted".toList) low

/-- `rejectMatch` with the only-whitespace pattern `/^[\s\n]*$/` removed,
everything else identical (for the unreachable-branch analysis). -/
def rejectMatchNoWS (low : List Char) : Bool :=
  listContains ("you need to have javascript enabled".toList) low ||
  listContains ("javascript is disabled".toList) low ||
  listContains ("enable javascript".toList) low ||
  listContains ("javascript required".toList) low ||
  listContains ("javascript must be enabled".toList) low ||
  listContains ("browser does not support javascript".toList) low ||
  listContains ("this page requires javascript".toList) low ||
  listContains ("please enable javascript".toList) low ||
  findThenGap ("error".toList) ("occurred".toList) low ||
  listContains ("page not found".toList) low ||
  listContains ("access denied".toList) low ||
  listContains ("unauthorized".toList) low ||
  listContains ("loading...".toList) low ||
  listContains ("please wait".toList) low ||
  wsWordWS ("loading".toList) low ||
  wsWordWS ("error".toList) low ||
  listContains ("content could not be extracted".toList) low

/-- The educational keyword patterns of `isValidContent` (content.js lines
1476-1500), in source order, lower-cased. -/
def eduKeywords : List (List Char) :=
  ["assignment", "discussion", "reading", "course", "lesson", "chapter",
   "quiz", "exam", "homework", "project", "syllabus", "instructions",
   "requirements", "objective", "learning", "submit", "due date", "points",
   "grade", "description", "module", "lecture", "tutorial"].map String.toList

/-- `isValidContent` (content.js lines 1439-1511): reject falsy or short
content, then the hard reject patterns on the lower-cased content, then
accept when an educational keyword occurs or the content has at least 20
tokens longer than 2 characters and more than 200 characters in total. -/
def isValidContent (content : List Char) : Bool :=
  if content = [] || decide ((trimWS content).length < 50) then false
  else
    let contentLower := content.map jsToLower
    if rejectMatch contentLower then false
    else
      let hasEducationalContent :=
        eduKeywords.any (fun k => listContains k contentLower)
      let words := (jsWords content).filter (fun w => 2 < w.length)
      hasEducationalContent ||
        (decide (20 ≤ words.length) && decide (200 < content.length))

/-- `isValidContent` on a possibly absent argument: the source also rejects
`null`, `undefined` and non-string arguments via
`!content || typeof content !== 'string'`. -/
def isValidContentOpt : Option (List Char) → Bool
  | none => false
  | some content => isValidContent content

/-- `isValidContent` with the only-whitespace reject pattern removed. -/
def isValidContentNoWS (content : List Char) : Bool :=
  if content = [] || decide ((trimWS content).length < 50) then false
  else
    let contentLower := content.map jsToLower
    if rejectMatchNoWS contentLower then false
    else
      let hasEducationalContent :=
        eduKeywords.any (fun k => listContains k contentLower)
      let words := (jsWords content).filter (fun w => 2 < w.length)
      hasEducationalContent ||
        (decide (20 ≤ words.length) && decide (200 < content.length))



/-- Case-insensitive literal match: if `pat` (already lower-case) is a
prefix of the input up to `jsToLower`, return the rest of the input. -/
def matchCI : List Char → List Char → Option (List Char)
  | [], l => some l
  | _ :: _, [] => none
  | p :: ps, c :: cs => if jsToLower c = p then matchCI ps cs else none

/-- Lazy `.*?` followed by the literal `b`: consume the shortest
newline-free gap after which `b` matches, returning the rest. -/
def lazyGap (b : List Char) : List Char → Option (List Char)
  | [] => matchCI b []
  | l@(c :: cs) =>
    match matchCI b l with
    | some r => some r
    | none => if c = '\n' || c = '\r' then none else lazyGap b cs

/-- Attempt of the regex `a.*?b` (case-insensitive) at the head of the
input: `a`, then a lazy newline-free gap, then `b`; returns the input
remaining after the match. -/
def tryPat (a b : List Char) (l : List Char) : Option (List Char) :=
  match matchCI a l with
  | some r => lazyGap b r
  | none => none

/-- Fuel-indexed global replace-with-empty of the regex `a.*?b` (flags
`gi`), as in JavaScript `text.replace(/a.*?b/gi, '')`: scan left to right,
drop each match and resume after it.  Every step consumes at least one
character (the literals `a`, `b` are non-empty), so fuel equal to the
input length makes the scanner total and faithful. -/
def replaceGo (a b : List Char) : Nat → List Char → List Char
  | 0, l => l
  | _ + 1, [] => []
  | n + 1, l@(c :: cs) =>
    match tryPat a b l with
    | some r => replaceGo a b n r
    | none => c :: replaceGo a b n cs

/-- JavaScript `text.replace(/a.*?b/gi, '')` on the whole input. -/
def replaceLazyCI (a b : List Char) (l : List Char) : List Char :=
  replaceGo a b l.length l

/-- `filterNavigationContent` (content.js lines 1709-1728, the later of the
two same-named class methods and therefore the one in effect): apply the
six `pattern.replace(..., '')` substitutions in source order and return the
result (this variant does not trim). -/
def filterNavigationContent (text : List Char) : List Char :=
  replaceLazyCI ("logout".toList) ("profile".toList)
    (replaceLazyCI ("help".toList) ("support".toList)
      (replaceLazyCI ("canvas".toList) ("logo".toList)
        (replaceLazyCI ("skip to".toList) ("content".toList)
          (replaceLazyCI ("navigation".toList) ("menu".toList)
            (replaceLazyCI ("dashboard".toList) ("courses".toList) text)))))



/-- One collected content part of the enhanced `extractPageContent`
(content.js line 859: `contentParts.push(\x7bsource, text, priority,
length\x7d)`); `length` is derivable and omitted. -/
structure ContentPart where
  source : List Char
  text : List Char
  priority : Nat
deriving DecidableEq

/-- One `(selector, priority, description)` rule of the enhanced
`extractPageContent` (content.js lines 763-838) together with the
`innerText` of each DOM element the selector matches, in DOM order.  The
DOM itself is outside the modelled core, so the query result is data. -/
structure SelGroup where
  selector : List Char
  priority : Nat
  description : List Char
  elements : List (List Char)

/-- The duplicate test of the priority pass (content.js lines 852-855):
an existing part contains the first 100 characters of the new text, or the
new text contains the first 100 characters of an existing part. -/
def isDuplicatePart (parts : List ContentPart) (text : List Char) : Bool :=
  parts.any fun part =>
    listContains (text.take 100) part.text ||
      listContains (part.text.take 100) text

/-- The inner element loop of the priority pass (content.js lines 847-868):
for each element text, if the trimmed text is longer than 50 characters and
not a duplicate, append a part carrying the rule description and
priority. -/
def scanElements (priority : Nat) (description : List Char)
    (parts : List ContentPart) : List (List Char) → List ContentPart
  | [] => parts
  | t :: ts =>
    if 50 < (trimWS t).length then
      if isDuplicatePart parts (trimWS t) then
        scanElements priority description parts ts
      else
        scanElements priority description
          (parts ++ [⟨description, trimWS t, priority⟩]) ts
    else scanElements priority description parts ts

/-- Stable insertion of a selector group into a list sorted by ascending
priority: the inserted group goes after strictly smaller priorities and
before equal ones that were later in the original list. -/
def insertGroup (g : SelGroup) : List SelGroup → List SelGroup
  | [] => [g]
  | h :: t =>
    if h.priority < g.priority then h :: insertGroup g t else g :: h :: t

/-- `contentSelectors.sort((a, b) => a.priority - b.priority)` (content.js
line 844): JavaScript sort is stable, modelled by stable insertion sort. -/
def sortGroups : List SelGroup → List SelGroup
  | [] => []
  | g :: gs => insertGroup g (sortGroups gs)

/-- The full priority pass (content.js lines 844-872): scan the rules in
ascending priority order, accumulating parts. -/
def collectParts (groups : List SelGroup) : List ContentPart :=
  (sortGroups groups).foldl
    (fun parts g => scanElements g.priority g.description parts g.elements) []

/-- The duplicate test of the comprehensive fallback scan (content.js lines
901-903): an existing part contains the whole new text, or the new text
contains the first 100 characters of an existing part. -/
def isDuplicateFallback (parts : List ContentPart) (text : List Char) : Bool :=
  parts.any fun part =>
    listContains text part.text || listContains (part.text.take 100) text

/-- The comprehensive fallback scan (content.js lines 875-911) over the
texts of the non-ignored elements, in DOM order: threshold 20 characters,
fallback duplicate rule, priority 4. -/
def fallbackScan (parts : List ContentPart) : List (List Char) → List ContentPart
  | [] => parts
  | t :: ts =>
    if 20 < (trimWS t).length then
      if isDuplicateFallback parts (trimWS t) then fallbackScan parts ts
      else
        fallbackScan
          (parts ++ [⟨"comprehensive scan".toList, trimWS t, 4⟩]) ts
    else fallbackScan parts ts

/-- Parts after the optional fallback (content.js lines 875-876): the
fallback scan runs when no priority-1 part was found or no part at all was
collected. -/
def applyFallback (parts : List ContentPart)
    (fallbackElems : List (List Char)) : List ContentPart :=
  if !(parts.any fun p => p.priority = 1) || parts.isEmpty then
    fallbackScan parts fallbackElems
  else parts

def allParts (groups : List SelGroup) (fallbackElems : List (List Char)) :
    List ContentPart :=
  applyFallback (collectParts groups) fallbackElems

/-- Stable insertion of a part into a list sorted by ascending priority. -/
def insertPart (p : ContentPart) : List ContentPart → List ContentPart
  | [] => [p]
  | h :: t => if h.priority < p.priority then h :: insertPart p t else p :: h :: t

/-- `contentParts.sort((a, b) => a.priority - b.priority)` (content.js line
917): stable sort of the collected parts by ascending priority. -/
def sortParts : List ContentPart → List ContentPart
  | [] => []
  | p :: ps => insertPart p (sortParts ps)

/-- `Array.prototype.join('\n\n')`. -/
def joinNN : List (List Char) → List Char
  | [] => []
  | [x] => x
  | x :: xs => x ++ '\n' :: '\n' :: joinNN xs

/-- `extractedContent.mainContent` (content.js lines 916-920): sort the
collected parts by ascending priority and join their texts with blank
lines. -/
def mainContent (groups : List SelGroup) (fallbackElems : List (List Char)) :
    List Char :=
  joinNN ((sortParts (allParts groups fallbackElems)).map ContentPart.text)

/-- The selector loop of the legacy `extractPageContent` (content.js lines
400-410): concatenate every matched element text whose trimmed length
exceeds 20, each followed by a blank line. -/
def legacySelectorContent (texts : List (List Char)) : List Char :=
  texts.foldl
    (fun acc t =>
      if 20 < (trimWS t).length then acc ++ trimWS t ++ ['\n', '\n'] else acc)
    []

/-- The fallback loop of the legacy `extractPageContent` (content.js lines
413-424): the texts of `querySelector` results for the four fallback
selectors (`none` when the selector matches no element); the first text
whose trimmed length exceeds 50 is taken, trimmed. -/
def legacyFallback : List (Option (List Char)) → Option (List Char)
  | [] => none
  | none :: rest => legacyFallback rest
  | some t :: rest =>
    if 50 < (trimWS t).length then some (trimWS t) else legacyFallback rest

/-- The literal `'No content found'` (content.js line 429). -/
def noContentFound : List Char := "No content found".toList

/-- The legacy `extractPageContent` (content.js lines 385-439): selector
loop, then the fallback selectors when the result trims to nothing, then
`document.title || 'No content found'`, then the whitespace clean-up
`.replace(/\s+/g, ' ').replace(/\n\s*\n/g, '\n').trim()`. -/
def extractPageContent (selTexts : List (List Char))
    (fbTexts : List (Option (List Char))) (title : List Char) : List Char :=
  let content := legacySelectorContent selTexts
  let content :=
    if trimWS content = [] then
      match legacyFallback fbTexts with
      | some t => t
      | none => content
    else content
  let content :=
    if trimWS content = [] then
      if title = [] then noContentFound else title
    else content
  trimWS (replaceNN (collapseWS content))

/-- The document state visible to `waitForCanvasContentLoad` at one poll:
which selectors `document.querySelector` finds, and the visible body
text. -/
structure DomSnapshot where
  query : List Char → Bool
  bodyText : List Char

/-- The Canvas readiness markers (content.js lines 1411-1417). -/
def canvasIndicators : List (List Char) :=
  [".ic-Layout-contentMain", ".show-content", ".user_content", "#main",
   "[data-testid]"].map String.toList

/-- One readiness check of `waitForCanvasContentLoad` (content.js lines
1419-1426): some Canvas indicator is present and the JavaScript-disabled
boilerplate is absent from the body text (a case-sensitive `includes`). -/
def checkCanvasLoaded (d : DomSnapshot) : Bool :=
  canvasIndicators.any d.query &&
    !(listContains ("You need to have JavaScript enabled".toList) d.bodyText)

/-- Fuel-indexed poll loop of `waitForCanvasContentLoad` (content.js lines
1407-1437) over a time-indexed document state: polls run at 0, 500, ...
milliseconds; the outer `setTimeout(resolve, 5000)` fires at 5000 ms ahead
of the poll scheduled for the same instant, capping the resolution time.
Eleven fuel steps cover every poll up to the cap, so the fuel never runs
out from the top-level call; fuel exhaustion returns the cap. -/
def gateRunAux : Nat → Nat → (Nat → DomSnapshot) → Nat
  | 0, _, _ => 5000
  | n + 1, t, doc =>
    if 5000 ≤ t then 5000
    else if checkCanvasLoaded (doc t) then t
    else gateRunAux n (t + 500) doc

/-- The time, in milliseconds, at which the promise returned by
`waitForCanvasContentLoad` resolves, for a document whose state over time
is `doc`. -/
def waitForCanvasContentLoad (doc : Nat → DomSnapshot) : Nat :=
  gateRunAux 11 0 doc

/-- The concrete input of the C2 witness. -/
def acceptWitnessText : List Char :=
  "Assignment instructions: read the lesson and submit homework before Friday.".toList

/-- A document that becomes ready 1000 ms after injection: from then on
the `#main` marker is present and the boilerplate is absent. -/
def gateWitnessDoc : Nat → DomSnapshot := fun t =>
  if 1000 ≤ t then
    ⟨fun s => s = "#main".toList, "Course home page".toList⟩
  else
    ⟨fun _ => false, "Loading".toList⟩

/-- The priority-1 text of the C7 witness. -/
def probeTextA : List Char :=
  "This assignment describes the final group project of the course in detail.".toList

/-- The priority-2 text of the C7 witness: it extends the priority-1 text,
so the two collide under the 100-character probe. -/
def probeTextB : List Char :=
  probeTextA ++ " Submit before Friday.".toList

/-- Trailing-whitespace trim, the right half of `trimWS`. -/
def trimRight (l : List Char) : List Char :=
  (l.reverse.dropWhile isWS).reverse

theorem isWS_jsToLower (c : Char) : isWS (jsToLower c) = isWS c := by
  rcases eq_or_ne c 'A' with rfl | hA; · decide
  rcases eq_or_ne c 'B' with rfl | hB; · decide
  rcases eq_or_ne c 'C' with rfl | hC; · decide
  rcases eq_or_ne c 'D' with rfl | hD; · decide
  rcases eq_or_ne c 'E' with rfl | hE; · decide
  rcases eq_or_ne c 'F' with rfl | hF; · decide
  rcases eq_or_ne c 'G' with rfl | hG; · decide
  rcases eq_or_ne c 'H' with rfl | hH; · decide
  rcases eq_or_ne c 'I' with rfl | hI; · decide
  rcases eq_or_ne c 'J' with rfl | hJ; · decide
  rcases eq_or_ne c 'K' with rfl | hK; · decide
  rcases eq_or_ne c 'L' with rfl | hL; · decide
  rcases eq_or_ne c 'M' with rfl | hM; · decide
  rcases eq_or_ne c 'N' with rfl | hN; · decide
  rcases eq_or_ne c 'O' with rfl | hO; · decide
  rcases eq_or_ne c 'P' with rfl | hP; · decide
  rcases eq_or_ne c 'Q' with rfl | hQ; · decide
  rcases eq_or_ne c 'R' with rfl | hR; · decide
  rcases eq_or_ne c 'S' with rfl | hS; · decide
  rcases eq_or_ne c 'T' with rfl | hT; · decide
  rcases eq_or_ne c 'U' with rfl | hU; · decide
  rcases eq_or_ne c 'V' with rfl | hV; · decide
  rcases eq_or_ne c 'W' with rfl | hW; · decide
  rcases eq_or_ne c 'X' with rfl | hX; · decide
  rcases eq_or_ne c 'Y' with rfl | hY; · decide
  rcases eq_or_ne c 'Z' with rfl | hZ; · decide
  have h : jsToLower c = c := by
    unfold jsToLower
    rw [if_neg hA, if_neg hB, if_neg hC, if_neg hD, if_neg hE, if_neg hF,
      if_neg hG, if_neg hH, if_neg hI, if_neg hJ, if_neg hK, if_neg hL,
      if_neg hM, if_neg hN, if_neg hO, if_neg hP, if_neg hQ, if_neg hR,
      if_neg hS, if_neg hT, if_neg hU, if_neg hV, if_neg hW, if_neg hX,
      if_neg hY, if_neg hZ]
  rw [h]

theorem trimWS_eq_nil_of_all (l : List Char) (h : ∀ c ∈ l, isWS c) :
    trimWS l = [] := by
  unfold trimWS
  rw [List.dropWhile_eq_nil_iff.mpr h]
  rfl

theorem all_isWS_false_of_trim (content : List Char)
    (h : 50 ≤ (trimWS content).length) :
    (content.map jsToLower).all isWS = false := by
  by_contra hcon
  have hall : (content.map jsToLower).all isWS = true := by
    revert hcon; cases (content.map jsToLower).all isWS <;> simp
  have h2 : ∀ c ∈ content, isWS c := by
    intro c hc
    have h3 := List.all_eq_true.mp hall (jsToLower c) (List.mem_map_of_mem _ hc)
    rwa [isWS_jsToLower] at h3
  rw [trimWS_eq_nil_of_all content h2] at h
  simp at h

/-- C1.  Reject-wins: any text matching one of the hard reject patterns is
declared invalid by `isValidContent`, regardless of educational keywords or
prose density, because the reject loop runs before the acceptance
heuristics and returns immediately. -/
theorem rejectPattern_forces_invalid (content : List Char)
    (h : rejectMatch (content.map jsToLower) = true) :
    isValidContent content = false := by
  unfold isValidContent
  split
  · rfl
  · simp [h]

/-- Witness for C1 at a concrete input that matches the reject pattern
`access denied` while also containing the educational keywords
`assignment` and `course` and exceeding all density thresholds. -/
theorem rejectPattern_forces_invalid_witness :
    rejectMatch
        (("Sorry, access denied for this assignment page; ask the course administrator today.".toList).map jsToLower)
        = true ∧
      isValidContent
        ("Sorry, access denied for this assignment page; ask the course administrator today.".toList)
        = false :=
  ⟨by decide, rejectPattern_forces_invalid _ (by decide)⟩

/-- C2.  Acceptance rule: once the length guard passes and no reject
pattern fires, `isValidContent` accepts exactly when an educational
keyword occurs in the lower-cased text, or the text has at least 20
whitespace-separated tokens longer than 2 characters and more than 200
characters in total. -/
theorem accept_iff_keyword_or_density (content : List Char)
    (h0 : content ≠ [])
    (h1 : ¬ (trimWS content).length < 50)
    (h2 : rejectMatch (content.map jsToLower) = false) :
    (isValidContent content = true ↔
      (eduKeywords.any
          (fun k => listContains k (content.map jsToLower)) = true ∨
        (20 ≤ ((jsWords content).filter (fun w => 2 < w.length)).length ∧
          200 < content.length))) := by
  unfold isValidContent
  simp [h0, h1, h2]

/-- Witness for C2 at a concrete accepted input. -/
theorem accept_iff_keyword_or_density_witness :
    acceptWitnessText ≠ [] ∧
      ¬ (trimWS acceptWitnessText).length < 50 ∧
      rejectMatch (acceptWitnessText.map jsToLower) = false ∧
      (isValidContent acceptWitnessText = true ↔
        (eduKeywords.any
            (fun k => listContains k (acceptWitnessText.map jsToLower)) = true ∨
          (20 ≤ ((jsWords acceptWitnessText).filter
              (fun w => 2 < w.length)).length ∧
            200 < acceptWitnessText.length))) :=
  ⟨by decide, by decide, by decide,
    accept_iff_keyword_or_density acceptWitnessText
      (by decide) (by decide) (by decide)⟩

/-- C3.  Minimum-length rejection: a missing, non-string, empty or short
(trimmed length below 50) input is declared invalid, and consequently any
accepted input is a non-empty string. -/
theorem short_input_rejected (content : Option (List Char)) :
    ((content = none ∨
        ∃ s, content = some s ∧ ((trimWS s).length < 50 ∨ s = [])) →
      isValidContentOpt content = false) ∧
    (isValidContentOpt content = true → ∃ s, content = some s ∧ s ≠ []) := by
  constructor
  · rintro (rfl | ⟨s, rfl, hs | rfl⟩)
    · rfl
    · show isValidContent s = false
      unfold isValidContent
      simp [hs]
    · rfl
  · intro h
    cases content with
    | none => exact absurd h (by simp [isValidContentOpt])
    | some s =>
      refine ⟨s, rfl, ?_⟩
      rintro rfl
      rw [show isValidContentOpt (some []) = false from rfl] at h
      exact Bool.false_ne_true h

/-- Witness for C3 at a concrete short input. -/
theorem short_input_rejected_witness :
    ((some ("too short".toList) = none ∨
        ∃ s, some ("too short".toList) = some s ∧
          ((trimWS s).length < 50 ∨ s = [])) →
      isValidContentOpt (some ("too short".toList)) = false) ∧
      isValidContentOpt (some ("too short".toList)) = false :=
  ⟨(short_input_rejected (some ("too short".toList))).1,
    (short_input_rejected (some ("too short".toList))).1
      (Or.inr ⟨_, rfl, Or.inl (by decide)⟩)⟩

theorem rejectMatch_eq_noWS (low : List Char) (h : low.all isWS = false) :
    rejectMatch low = rejectMatchNoWS low := by
  unfold rejectMatch rejectMatchNoWS
  rw [h]
  simp [Bool.or_assoc]

/-- C10.  Unreachable reject branch: any input whose trimmed length is at
least 50 contains a non-whitespace character, so the only-whitespace
pattern of the reject loop can never fire there; consequently removing
that pattern leaves the verdict of `isValidContent` unchanged on every
input. -/
theorem wsPattern_unreachable :
    (∀ content : List Char, 50 ≤ (trimWS content).length →
        (content.map jsToLower).all isWS = false) ∧
    (∀ content : List Char,
        isValidContentNoWS content = isValidContent content) := by
  constructor
  · exact all_isWS_false_of_trim
  · intro content
    unfold isValidContent isValidContentNoWS
    by_cases hg :
        (decide (content = []) ||
          decide ((trimWS content).length < 50)) = true
    · rw [if_pos hg, if_pos hg]
    · rw [if_neg hg, if_neg hg]
      have h50 : 50 ≤ (trimWS content).length := by
        rcases Bool.or_eq_false_iff.mp (Bool.eq_false_iff.mpr hg) with ⟨-, h2⟩
        have := of_decide_eq_false h2
        omega
      simp only [rejectMatch_eq_noWS _ (all_isWS_false_of_trim content h50)]

/-- Witness for C10 at a concrete long input. -/
theorem wsPattern_unreachable_witness :
    50 ≤ (trimWS acceptWitnessText).length ∧
      (acceptWitnessText.map jsToLower).all isWS = false ∧
      isValidContentNoWS acceptWitnessText = isValidContent acceptWitnessText :=
  ⟨by decide, wsPattern_unreachable.1 acceptWitnessText (by decide),
    wsPattern_unreachable.2 acceptWitnessText⟩

theorem gateRunAux_le (n : Nat) :
    ∀ k : Nat, k ≤ 10 → ∀ doc : Nat → DomSnapshot,
      gateRunAux n (500 * k) doc ≤ 5000 := by
  induction n with
  | zero => intro k _ doc; exact Nat.le_refl 5000
  | succ n ih =>
    intro k hk doc
    show (if 5000 ≤ 500 * k then 5000
      else if checkCanvasLoaded (doc (500 * k)) then 500 * k
      else gateRunAux n (500 * k + 500) doc) ≤ 5000
    split
    · exact Nat.le_refl 5000
    · split
      · omega
      · rename_i hlt _
        have hk9 : k + 1 ≤ 10 := by omega
        have heq : 500 * k + 500 = 500 * (k + 1) := by ring
        rw [heq]
        exact ih (k + 1) hk9 doc

theorem gateRunAux_first (n : Nat) :
    ∀ k target : Nat, target < 10 → k ≤ target → target - k < n →
      ∀ doc : Nat → DomSnapshot,
        checkCanvasLoaded (doc (500 * target)) = true →
        (∀ j, k ≤ j → j < target → checkCanvasLoaded (doc (500 * j)) = false) →
        gateRunAux n (500 * k) doc = 500 * target := by
  induction n with
  | zero => intro k target _ _ hlt _ _ _; omega
  | succ n ih =>
    intro k target htarget hk hfuel doc hcond hbefore
    show (if 5000 ≤ 500 * k then 5000
      else if checkCanvasLoaded (doc (500 * k)) then 500 * k
      else gateRunAux n (500 * k + 500) doc) = 500 * target
    rw [if_neg (by omega)]
    by_cases hkt : k = target
    · subst hkt
      rw [if_pos hcond]
    · have hklt : k < target := by omega
      rw [if_neg (by rw [hbefore k (Nat.le_refl k) hklt]; simp)]
      have heq : 500 * k + 500 = 500 * (k + 1) := by ring
      rw [heq]
      exact ih (k + 1) target htarget (by omega) (by omega) doc hcond
        (fun j h1 h2 => hbefore j (by omega) h2)

/-- C9.  Page-Load Gate termination: the poll loop of
`waitForCanvasContentLoad` resolves at the first poll (500 ms interval,
starting immediately) at which a readiness marker is present and the
JavaScript-disabled boilerplate is absent, and in every case resolves no
later than the 5000 ms timeout. -/
theorem gate_resolves_bounded (doc : Nat → DomSnapshot) :
    waitForCanvasContentLoad doc ≤ 5000 ∧
      (∀ k : Nat, k < 10 → checkCanvasLoaded (doc (500 * k)) = true →
        (∀ j, j < k → checkCanvasLoaded (doc (500 * j)) = false) →
        waitForCanvasContentLoad doc = 500 * k) := by
  constructor
  · have h := gateRunAux_le 11 0 (by omega) doc
    simpa using h
  · intro k hk hcond hbefore
    have h := gateRunAux_first 11 0 k hk (Nat.zero_le k) (by omega) doc hcond
      (fun j _ h2 => hbefore j h2)
    simpa using h

/-- Witness for C9: on `gateWitnessDoc` the gate resolves exactly at the
third poll, 1000 ms. -/
theorem gate_resolves_bounded_witness :
    waitForCanvasContentLoad gateWitnessDoc ≤ 5000 ∧
      waitForCanvasContentLoad gateWitnessDoc = 500 * 2 :=
  ⟨(gate_resolves_bounded gateWitnessDoc).1,
    (gate_resolves_bounded gateWitnessDoc).2 2 (by decide) (by decide)
      (by decide)⟩

theorem isDuplicatePart_nil (text : List Char) :
    isDuplicatePart [] text = false := rfl

/-- C6 counterexample: a 30-character text passes the threshold claimed by
the spec (more than 20 characters) and is no duplicate, yet the priority
pass emits no candidate, because the pass requires more than 50
characters. -/
theorem candidate_emission_30char_counterexample :
    collectParts
        [⟨".user_content".toList, 1, "Main Canvas user content".toList,
          ["abcdefghijklmnopqrstuvwxyz0123".toList]⟩] = [] ∧
      20 < (trimWS ("abcdefghijklmnopqrstuvwxyz0123".toList)).length ∧
      isDuplicatePart [] (trimWS ("abcdefghijklmnopqrstuvwxyz0123".toList))
        = false := by
  refine ⟨by decide, by decide, rfl⟩

/-- C6 (amended).  Candidate emission in the priority pass: processing one
element with accumulated parts `parts` emits a candidate exactly when the
trimmed element text is longer than 50 characters (not 20 as claimed; 20
is the fallback-scan threshold) and the text is not a near-duplicate of an
already-collected part under the 100-character probe. -/
theorem candidate_emission_iff (parts : List ContentPart) (priority : Nat)
    (description t : List Char) :
    (∃ q, scanElements priority description parts [t] = parts ++ [q] ∧
        q.text = trimWS t ∧ q.priority = priority) ↔
      (50 < (trimWS t).length ∧ isDuplicatePart parts (trimWS t) = false) := by
  constructor
  · rintro ⟨q, heq, -, -⟩
    by_cases hlen : 50 < (trimWS t).length
    · by_cases hdup : isDuplicatePart parts (trimWS t) = true
      · rw [show scanElements priority description parts [t] = parts from by
            unfold scanElements; rw [if_pos hlen, if_pos hdup]; rfl] at heq
        exact absurd (congrArg List.length heq) (by simp)
      · exact ⟨hlen, Bool.eq_false_iff.mpr hdup⟩
    · rw [show scanElements priority description parts [t] = parts from by
          unfold scanElements; rw [if_neg hlen]; rfl] at heq
      exact absurd (congrArg List.length heq) (by simp)
  · rintro ⟨hlen, hdup⟩
    refine ⟨⟨description, trimWS t, priority⟩, ?_, rfl, rfl⟩
    unfold scanElements
    rw [if_pos hlen, if_neg (by rw [hdup]; simp)]
    rfl

/-- Witness for C6 (amended) at a concrete emitted candidate. -/
theorem candidate_emission_iff_witness :
    (∃ q, scanElements 1 ("Main Canvas user content".toList) []
        ["This assignment describes the final project of the course in detail.".toList]
          = [] ++ [q] ∧
        q.text = trimWS ("This assignment describes the final project of the course in detail.".toList) ∧
        q.priority = 1) ∧
      50 < (trimWS ("This assignment describes the final project of the course in detail.".toList)).length :=
  ⟨(candidate_emission_iff [] 1 ("Main Canvas user content".toList)
      ("This assignment describes the final project of the course in detail.".toList)).mpr
    ⟨by decide, rfl⟩, by decide⟩

theorem mem_insertPart {b p : ContentPart} {ps : List ContentPart}
    (h : b ∈ insertPart p ps) : b = p ∨ b ∈ ps := by
  induction ps with
  | nil => simpa [insertPart] using h
  | cons q qs ih =>
    unfold insertPart at h
    split at h
    · rcases List.mem_cons.mp h with rfl | h2
      · exact Or.inr (List.mem_cons_self _ _)
      · rcases ih h2 with h3 | h3
        · exact Or.inl h3
        · exact Or.inr (List.mem_cons_of_mem _ h3)
    · rcases List.mem_cons.mp h with rfl | h2
      · exact Or.inl rfl
      · exact Or.inr h2

theorem pairwise_insertPart (p : ContentPart) (ps : List ContentPart)
    (h : ps.Pairwise (fun a b => a.priority ≤ b.priority)) :
    (insertPart p ps).Pairwise (fun a b => a.priority ≤ b.priority) := by
  induction ps with
  | nil => simp [insertPart]
  | cons q qs ih =>
    rw [List.pairwise_cons] at h
    unfold insertPart
    split
    · rename_i hlt
      rw [List.pairwise_cons]
      constructor
      · intro b hb
        rcases mem_insertPart hb with rfl | hmem
        · exact Nat.le_of_lt hlt
        · exact h.1 b hmem
      · exact ih h.2
    · rename_i hge
      rw [List.pairwise_cons]
      constructor
      · intro b hb
        rcases List.mem_cons.mp hb with rfl | hmem
        · omega
        · exact Nat.le_trans (by omega) (h.1 b hmem)
      · rw [List.pairwise_cons]
        exact h

theorem sortParts_pairwise (ps : List ContentPart) :
    (sortParts ps).Pairwise (fun a b => a.priority ≤ b.priority) := by
  induction ps with
  | nil => simp [sortParts]
  | cons p ps ih => exact pairwise_insertPart p (sortParts ps) ih

/-- C7.  Priority-ordered merge: the parts joined into the body are sorted
by ascending priority whatever the traversal order, and for two selector
matches at priorities 1 and 2 whose trimmed texts collide under the
100-character probe, the merged body is exactly the priority-1 text, in
either input order of the two rules. -/
theorem merged_body_priority_order :
    (∀ (groups : List SelGroup) (fallbackElems : List (List Char)),
        (sortParts (allParts groups fallbackElems)).Pairwise
          (fun a b => a.priority ≤ b.priority)) ∧
      (∀ (s1 s2 d1 d2 t1 t2 : List Char) (fb : List (List Char)),
        50 < (trimWS t1).length → 50 < (trimWS t2).length →
        isDuplicatePart [⟨d1, trimWS t1, 1⟩] (trimWS t2) = true →
        mainContent [⟨s1, 1, d1, [t1]⟩, ⟨s2, 2, d2, [t2]⟩] fb = trimWS t1 ∧
          mainContent [⟨s2, 2, d2, [t2]⟩, ⟨s1, 1, d1, [t1]⟩] fb = trimWS t1) := by
  constructor
  · intro groups fallbackElems
    exact sortParts_pairwise _
  · intro s1 s2 d1 d2 t1 t2 fb h1 h2 hdup
    have step1 : scanElements 1 d1 [] [t1] = [⟨d1, trimWS t1, 1⟩] := by
      unfold scanElements
      rw [if_pos h1, if_neg (by rw [isDuplicatePart_nil]; simp)]
      rfl
    have step2 : scanElements 2 d2 [⟨d1, trimWS t1, 1⟩] [t2]
        = [⟨d1, trimWS t1, 1⟩] := by
      unfold scanElements
      rw [if_pos h2, if_pos hdup]
      rfl
    have hfinal : ∀ s : List ContentPart, s = [⟨d1, trimWS t1, 1⟩] →
        joinNN ((sortParts (applyFallback s fb)).map ContentPart.text) = trimWS t1 := by
      rintro s rfl
      simp [applyFallback, sortParts, insertPart, joinNN]
    constructor
    · show joinNN ((sortParts (allParts [⟨s1, 1, d1, [t1]⟩, ⟨s2, 2, d2, [t2]⟩] fb)).map ContentPart.text) = trimWS t1
      have hsort : sortGroups [(⟨s1, 1, d1, [t1]⟩ : SelGroup), ⟨s2, 2, d2, [t2]⟩]
          = [⟨s1, 1, d1, [t1]⟩, ⟨s2, 2, d2, [t2]⟩] := by
        simp [sortGroups, insertGroup]
      rw [show allParts [(⟨s1, 1, d1, [t1]⟩ : SelGroup), ⟨s2, 2, d2, [t2]⟩] fb
          = applyFallback (collectParts [⟨s1, 1, d1, [t1]⟩, ⟨s2, 2, d2, [t2]⟩]) fb from rfl]
      rw [show collectParts [(⟨s1, 1, d1, [t1]⟩ : SelGroup), ⟨s2, 2, d2, [t2]⟩]
          = scanElements 2 d2 (scanElements 1 d1 [] [t1]) [t2] from by
        unfold collectParts
        rw [hsort]
        rfl]
      rw [step1, step2]
      exact hfinal _ rfl
    · show joinNN ((sortParts (allParts [⟨s2, 2, d2, [t2]⟩, ⟨s1, 1, d1, [t1]⟩] fb)).map ContentPart.text) = trimWS t1
      have hsort : sortGroups [(⟨s2, 2, d2, [t2]⟩ : SelGroup), ⟨s1, 1, d1, [t1]⟩]
          = [⟨s1, 1, d1, [t1]⟩, ⟨s2, 2, d2, [t2]⟩] := by
        simp [sortGroups, insertGroup]
      rw [show allParts [(⟨s2, 2, d2, [t2]⟩ : SelGroup), ⟨s1, 1, d1, [t1]⟩] fb
          = applyFallback (collectParts [⟨s2, 2, d2, [t2]⟩, ⟨s1, 1, d1, [t1]⟩]) fb from rfl]
      rw [show collectParts [(⟨s2, 2, d2, [t2]⟩ : SelGroup), ⟨s1, 1, d1, [t1]⟩]
          = scanElements 2 d2 (scanElements 1 d1 [] [t1]) [t2] from by
        unfold collectParts
        rw [hsort]
        rfl]
      rw [step1, step2]
      exact hfinal _ rfl

/-- Witness for C7 at two concrete overlapping texts. -/
theorem merged_body_priority_order_witness :
    50 < (trimWS probeTextA).length ∧
      50 < (trimWS probeTextB).length ∧
      isDuplicatePart [⟨"Main Canvas user content".toList, trimWS probeTextA, 1⟩]
        (trimWS probeTextB) = true ∧
      mainContent
          [⟨".user_content".toList, 1, "Main Canvas user content".toList, [probeTextA]⟩,
            ⟨".content-wrap".toList, 2, "Canvas content wrapper".toList, [probeTextB]⟩]
          [] = trimWS probeTextA :=
  ⟨by decide, by decide, by decide,
    (merged_body_priority_order.2 (".user_content".toList) (".content-wrap".toList)
        ("Main Canvas user content".toList) ("Canvas content wrapper".toList)
        probeTextA probeTextB [] (by decide) (by decide) (by decide)).1⟩

theorem legacySelectorContent_nil (texts : List (List Char))
    (h : ∀ t ∈ texts, (trimWS t).length ≤ 20) :
    legacySelectorContent texts = [] := by
  have haux : ∀ acc, texts.foldl
      (fun acc t =>
        if 20 < (trimWS t).length then acc ++ trimWS t ++ ['\n', '\n'] else acc)
      acc = acc := by
    induction texts with
    | nil => intro acc; rfl
    | cons t ts ih =>
      intro acc
      rw [List.foldl_cons,
        if_neg (by have := h t (List.mem_cons_self t ts); omega)]
      exact ih (fun u hu => h u (List.mem_cons_of_mem t hu)) acc
  exact haux []

theorem legacyFallback_none (fbs : List (Option (List Char)))
    (h : ∀ o ∈ fbs, ∀ t, o = some t → (trimWS t).length ≤ 50) :
    legacyFallback fbs = none := by
  induction fbs with
  | nil => rfl
  | cons o rest ih =>
    cases o with
    | none =>
      exact ih (fun u hu => h u (List.mem_cons_of_mem none hu))
    | some t =>
      show (if 50 < (trimWS t).length then some (trimWS t)
        else legacyFallback rest) = none
      rw [if_neg (by have := h (some t) (List.mem_cons_self _ _) t rfl; omega)]
      exact ih (fun u hu => h u (List.mem_cons_of_mem (some t) hu))

/-- C8 counterexample: with no selector match and no fallback text, a
whitespace-only document title yields an empty extracted body and not the
title itself. -/
theorem title_fallback_ws_counterexample :
    extractPageContent [] [] (' ' :: ' ' :: [' ']) = [] ∧
      extractPageContent [] [] (' ' :: ' ' :: [' ']) ≠ ' ' :: ' ' :: [' '] := by
  refine ⟨by decide, by decide⟩

theorem trimWS_def2 (l : List Char) :
    trimWS l = trimRight (l.dropWhile isWS) := rfl

theorem length_dropWhile_le (p : Char → Bool) (l : List Char) :
    (l.dropWhile p).length ≤ l.length := by
  induction l with
  | nil => simp
  | cons c cs ih =>
    rw [List.dropWhile_cons]
    split
    · exact Nat.le_succ_of_le ih
    · simp

theorem collapseWS_cons_nonws (c : Char) (cs : List Char)
    (hc : isWS c = false) : collapseWS (c :: cs) = c :: collapseWS cs := by
  show (if isWS c = true then
      (match cs with
        | [] => [' ']
        | d :: _ => if isWS d = true then collapseWS cs else ' ' :: collapseWS cs)
    else c :: collapseWS cs) = c :: collapseWS cs
  rw [if_neg (by rw [hc]; simp)]

theorem collapseWS_singleton_ws (a : Char) (ha : isWS a = true) :
    collapseWS [a] = [' '] := by
  show (if isWS a = true then
      (match ([] : List Char) with
        | [] => [' ']
        | d :: _ => if isWS d = true then collapseWS [] else ' ' :: collapseWS [])
    else a :: collapseWS []) = [' ']
  rw [if_pos ha]

theorem collapseWS_cons_ws_ws (a b : Char) (cs : List Char)
    (ha : isWS a = true) (hb : isWS b = true) :
    collapseWS (a :: b :: cs) = collapseWS (b :: cs) := by
  show (if isWS a = true then
      (if isWS b = true then collapseWS (b :: cs) else ' ' :: collapseWS (b :: cs))
    else a :: collapseWS (b :: cs)) = collapseWS (b :: cs)
  rw [if_pos ha, if_pos hb]

theorem collapseWS_cons_ws_nonws (a b : Char) (cs : List Char)
    (ha : isWS a = true) (hb : isWS b = false) :
    collapseWS (a :: b :: cs) = ' ' :: collapseWS (b :: cs) := by
  show (if isWS a = true then
      (if isWS b = true then collapseWS (b :: cs) else ' ' :: collapseWS (b :: cs))
    else a :: collapseWS (b :: cs)) = ' ' :: collapseWS (b :: cs)
  rw [if_pos ha, if_neg (by rw [hb]; simp)]

theorem jsWords_cons_ws (a : Char) (cs : List Char) (ha : isWS a = true) :
    jsWords (a :: cs) = jsWords cs := by
  show (if isWS a = true then jsWords cs
    else match cs with
      | [] => [[a]]
      | d :: _ =>
        if isWS d = true then [a] :: jsWords cs
        else match jsWords cs with
          | [] => [[a]]
          | w :: ws => (a :: w) :: ws) = jsWords cs
  rw [if_pos ha]

theorem jsWords_singleton_nonws (c : Char) (hc : isWS c = false) :
    jsWords [c] = [[c]] := by
  show (if isWS c = true then jsWords []
    else match ([] : List Char) with
      | [] => [[c]]
      | d :: _ =>
        if isWS d = true then [c] :: jsWords []
        else match jsWords [] with
          | [] => [[c]]
          | w :: ws => (c :: w) :: ws) = [[c]]
  rw [if_neg (by rw [hc]; simp)]

theorem jsWords_cons_nonws_ws (c d : Char) (cs : List Char)
    (hc : isWS c = false) (hd : isWS d = true) :
    jsWords (c :: d :: cs) = [c] :: jsWords (d :: cs) := by
  show (if isWS c = true then jsWords (d :: cs)
    else
      if isWS d = true then [c] :: jsWords (d :: cs)
      else match jsWords (d :: cs) with
        | [] => [[c]]
        | w :: ws => (c :: w) :: ws) = [c] :: jsWords (d :: cs)
  rw [if_neg (by rw [hc]; simp), if_pos hd]

theorem jsWords_cons_nonws_nonws (c e : Char) (cs : List Char)
    (hc : isWS c = false) (he : isWS e = false)
    (w : List Char) (ws : List (List Char))
    (hjs : jsWords (e :: cs) = w :: ws) :
    jsWords (c :: e :: cs) = (c :: w) :: ws := by
  show (if isWS c = true then jsWords (e :: cs)
    else
      if isWS e = true then [c] :: jsWords (e :: cs)
      else match jsWords (e :: cs) with
        | [] => [[c]]
        | w :: ws => (c :: w) :: ws) = (c :: w) :: ws
  rw [if_neg (by rw [hc]; simp), if_neg (by rw [he]; simp), hjs]

theorem jsWords_ne_nil (e : Char) (cs : List Char) (he : isWS e = false) :
    jsWords (e :: cs) ≠ [] := by
  cases cs with
  | nil => rw [jsWords_singleton_nonws e he]; simp
  | cons d ds =>
    by_cases hd : isWS d = true
    · rw [jsWords_cons_nonws_ws e d ds he hd]; simp
    · have hd2 : isWS d = false := by revert hd; cases isWS d <;> simp
      cases hjs : jsWords (d :: ds) with
      | nil => exact absurd hjs (jsWords_ne_nil d ds hd2)
      | cons w ws =>
        rw [jsWords_cons_nonws_nonws e d ds he hd2 w ws hjs]
        simp

theorem collapseWS_word (w r : List Char) (h : ∀ c ∈ w, isWS c = false) :
    collapseWS (w ++ r) = w ++ collapseWS r := by
  induction w with
  | nil => rfl
  | cons c w2 ih =>
    have hc : isWS c = false := h c (List.mem_cons_self _ _)
    show collapseWS (c :: (w2 ++ r)) = c :: (w2 ++ collapseWS r)
    rw [collapseWS_cons_nonws c _ hc,
      ih (fun d hd => h d (List.mem_cons_of_mem c hd))]

theorem collapseWS_wsrun (u r : List Char) (hne : u ≠ [])
    (hu : ∀ c ∈ u, isWS c = true)
    (hr : r = [] ∨ ∃ d rr, r = d :: rr ∧ isWS d = false) :
    collapseWS (u ++ r) = ' ' :: collapseWS r := by
  induction u with
  | nil => exact absurd rfl hne
  | cons a u2 ih =>
    have ha : isWS a = true := hu a (List.mem_cons_self _ _)
    cases u2 with
    | nil =>
      show collapseWS (a :: r) = ' ' :: collapseWS r
      rcases hr with rfl | ⟨d, rr, rfl, hd⟩
      · rw [collapseWS_singleton_ws a ha]; rfl
      · rw [collapseWS_cons_ws_nonws a d rr ha hd]
    | cons b u3 =>
      have hb : isWS b = true :=
        hu b (List.mem_cons_of_mem a (List.mem_cons_self _ _))
      show collapseWS (a :: ((b :: u3) ++ r)) = ' ' :: collapseWS r
      rw [show (b :: u3) ++ r = b :: (u3 ++ r) from rfl,
        collapseWS_cons_ws_ws a b (u3 ++ r) ha hb]
      exact ih (by simp) (fun d hd => hu d (List.mem_cons_of_mem a hd))

theorem jsWords_wsrun (u r : List Char) (hu : ∀ c ∈ u, isWS c = true) :
    jsWords (u ++ r) = jsWords r := by
  induction u with
  | nil => rfl
  | cons a u2 ih =>
    have ha : isWS a = true := hu a (List.mem_cons_self _ _)
    show jsWords (a :: (u2 ++ r)) = jsWords r
    rw [jsWords_cons_ws a _ ha]
    exact ih (fun d hd => hu d (List.mem_cons_of_mem a hd))

theorem jsWords_word (w r : List Char) (hne : w ≠ [])
    (hw : ∀ c ∈ w, isWS c = false)
    (hr : r = [] ∨ ∃ d rr, r = d :: rr ∧ isWS d = true) :
    jsWords (w ++ r) = w :: jsWords r := by
  induction w with
  | nil => exact absurd rfl hne
  | cons c w2 ih =>
    have hc : isWS c = false := hw c (List.mem_cons_self _ _)
    cases w2 with
    | nil =>
      show jsWords (c :: r) = [c] :: jsWords r
      rcases hr with rfl | ⟨d, rr, rfl, hd⟩
      · rw [jsWords_singleton_nonws c hc]; rfl
      · rw [jsWords_cons_nonws_ws c d rr hc hd]
    | cons e w3 =>
      have he : isWS e = false :=
        hw e (List.mem_cons_of_mem c (List.mem_cons_self _ _))
      show jsWords (c :: ((e :: w3) ++ r)) = (c :: e :: w3) :: jsWords r
      have hrec : jsWords ((e :: w3) ++ r) = (e :: w3) :: jsWords r :=
        ih (by simp) (fun d hd => hw d (List.mem_cons_of_mem c hd))
      rw [show (e :: w3) ++ r = e :: (w3 ++ r) from rfl] at hrec ⊢
      rw [jsWords_cons_nonws_nonws c e (w3 ++ r) hc he (e :: w3)
        (jsWords r) hrec]

theorem trimWS_cons_ws (c : Char) (x : List Char) (hc : isWS c = true) :
    trimWS (c :: x) = trimWS x := by
  unfold trimWS
  rw [List.dropWhile_cons_of_pos hc]

theorem trimRight_append (a b : List Char) :
    trimRight (a ++ b) =
      if trimRight b = [] then trimRight a else a ++ trimRight b := by
  unfold trimRight
  rw [List.reverse_append, List.dropWhile_append]
  by_cases h : (b.reverse.dropWhile isWS).isEmpty = true
  · have hb : (b.reverse.dropWhile isWS).reverse = [] := by
      rw [List.isEmpty_iff] at h
      rw [h]
      rfl
    rw [if_pos h, if_pos hb]
  · have hb : (b.reverse.dropWhile isWS).reverse ≠ [] := by
      intro hcon
      apply h
      rw [List.isEmpty_iff]
      have := congrArg List.reverse hcon
      simpa using this
    rw [if_neg h, if_neg hb, List.reverse_append, List.reverse_reverse]

theorem trimRight_ne_nil_of_head (e : Char) (x : List Char)
    (he : isWS e = false) : trimRight (e :: x) ≠ [] := by
  unfold trimRight
  intro hcon
  have h2 : (e :: x).reverse.dropWhile isWS = [] := by
    have := congrArg List.reverse hcon
    simpa using this
  have h3 := List.dropWhile_eq_nil_iff.mp h2 e (by simp)
  rw [he] at h3
  exact absurd h3 (by simp)

theorem trimRight_all_nonws (w : List Char) (h : ∀ c ∈ w, isWS c = false) :
    trimRight w = w := by
  unfold trimRight
  cases hw : w.reverse with
  | nil =>
    have hnil : w = [] := by
      have := congrArg List.reverse hw
      simpa using this
    subst hnil
    rfl
  | cons c t =>
    have hc : c ∈ w := by
      have hmem : c ∈ w.reverse := by rw [hw]; exact List.mem_cons_self _ _
      simpa using hmem
    rw [List.dropWhile_cons_of_neg (by rw [h c hc]; simp), ← hw,
      List.reverse_reverse]

theorem trimWS_append_word (w X : List Char) (hne : w ≠ [])
    (hw : ∀ c ∈ w, isWS c = false) :
    trimWS (w ++ X) = if trimRight X = [] then w else w ++ trimRight X := by
  rw [trimWS_def2]
  have hdw : (w ++ X).dropWhile isWS = w ++ X := by
    cases w with
    | nil => exact absurd rfl hne
    | cons c w2 =>
      rw [List.cons_append,
        List.dropWhile_cons_of_neg
          (by rw [hw c (List.mem_cons_self _ _)]; simp)]
  rw [hdw, trimRight_append, trimRight_all_nonws w hw]

theorem joinSpace_cons_ne (w : List Char) (ws : List (List Char))
    (h : ws ≠ []) : joinSpace (w :: ws) = w ++ ' ' :: joinSpace ws := by
  cases ws with
  | nil => exact absurd rfl h
  | cons w2 ws2 => rfl

theorem trim_collapse_aux :
    ∀ n : Nat, ∀ l : List Char, l.length ≤ n →
      trimWS (collapseWS l) = joinSpace (jsWords l) := by
  intro n
  induction n with
  | zero =>
    intro l hl
    have h0 : l = [] := List.length_eq_zero.mp (Nat.le_zero.mp hl)
    subst h0
    rfl
  | succ n ih =>
    intro l hl
    cases l with
    | nil => rfl
    | cons c cs =>
      by_cases hc : isWS c = true
      · have hsplit := List.takeWhile_append_dropWhile isWS (c :: cs)
        have hu_all : ∀ d ∈ (c :: cs).takeWhile isWS, isWS d = true :=
          fun d hd => List.mem_takeWhile_imp hd
        have hu_ne : (c :: cs).takeWhile isWS ≠ [] := by
          rw [List.takeWhile_cons_of_pos hc]
          simp
        have hr_shape : (c :: cs).dropWhile isWS = [] ∨
            ∃ d rr, (c :: cs).dropWhile isWS = d :: rr ∧ isWS d = false := by
          cases hrc : (c :: cs).dropWhile isWS with
          | nil => exact Or.inl rfl
          | cons d rr =>
            refine Or.inr ⟨d, rr, rfl, ?_⟩
            have hW := List.head?_dropWhile_not isWS (c :: cs)
            rw [hrc] at hW
            exact hW
        have h1 : collapseWS (c :: cs) =
            ' ' :: collapseWS ((c :: cs).dropWhile isWS) := by
          conv_lhs => rw [← hsplit]
          exact collapseWS_wsrun _ _ hu_ne hu_all hr_shape
        have h2 : jsWords (c :: cs) =
            jsWords ((c :: cs).dropWhile isWS) := by
          conv_lhs => rw [← hsplit]
          exact jsWords_wsrun _ _ hu_all
        rw [h1, trimWS_cons_ws _ _ (by decide), h2]
        apply ih
        rw [List.dropWhile_cons_of_pos hc]
        exact Nat.le_trans (length_dropWhile_le isWS cs)
          (Nat.le_of_succ_le_succ hl)
      · have hc2 : isWS c = false := by revert hc; cases isWS c <;> simp
        have hsplit :=
          List.takeWhile_append_dropWhile (fun d => !isWS d) (c :: cs)
        have hw_all :
            ∀ d ∈ (c :: cs).takeWhile (fun d => !isWS d), isWS d = false := by
          intro d hd
          have := List.mem_takeWhile_imp hd
          revert this
          cases isWS d <;> simp
        have hw_ne : (c :: cs).takeWhile (fun d => !isWS d) ≠ [] := by
          rw [List.takeWhile_cons_of_pos (by rw [hc2]; rfl)]
          simp
        have hr_shape : (c :: cs).dropWhile (fun d => !isWS d) = [] ∨
            ∃ d rr, (c :: cs).dropWhile (fun d => !isWS d) = d :: rr ∧
              isWS d = true := by
          cases hrc : (c :: cs).dropWhile (fun d => !isWS d) with
          | nil => exact Or.inl rfl
          | cons d rr =>
            refine Or.inr ⟨d, rr, rfl, ?_⟩
            have hW := List.head?_dropWhile_not (fun d => !isWS d) (c :: cs)
            rw [hrc] at hW
            have hW2 : (!isWS d) = false := hW
            revert hW2
            cases isWS d <;> simp
        have h1 : collapseWS (c :: cs) =
            (c :: cs).takeWhile (fun d => !isWS d) ++
              collapseWS ((c :: cs).dropWhile (fun d => !isWS d)) := by
          conv_lhs => rw [← hsplit]
          exact collapseWS_word _ _ hw_all
        have h2 : jsWords (c :: cs) =
            (c :: cs).takeWhile (fun d => !isWS d) ::
              jsWords ((c :: cs).dropWhile (fun d => !isWS d)) := by
          conv_lhs => rw [← hsplit]
          exact jsWords_word _ _ hw_ne hw_all hr_shape
        have hrlen : ((c :: cs).dropWhile (fun d => !isWS d)).length ≤ n := by
          rw [List.dropWhile_cons_of_pos (by rw [hc2]; rfl)]
          exact Nat.le_trans (length_dropWhile_le _ cs)
            (Nat.le_of_succ_le_succ hl)
        rw [h1, h2, trimWS_append_word _ _ hw_ne hw_all]
        rcases hr_shape with hr0 | ⟨d, rr, hr1, hd⟩
        · rw [hr0]
          rw [show collapseWS ([] : List Char) = [] from rfl,
            show trimRight ([] : List Char) = [] from rfl, if_pos rfl]
          rfl
        · have hsplit2 :=
            List.takeWhile_append_dropWhile isWS
              ((c :: cs).dropWhile (fun d => !isWS d))
          have hu2_all : ∀ e ∈ ((c :: cs).dropWhile (fun d => !isWS d)).takeWhile isWS,
              isWS e = true := fun e he => List.mem_takeWhile_imp he
          have hu2_ne :
              ((c :: cs).dropWhile (fun d => !isWS d)).takeWhile isWS ≠ [] := by
            rw [hr1, List.takeWhile_cons_of_pos hd]
            simp
          have hr2_shape :
              ((c :: cs).dropWhile (fun d => !isWS d)).dropWhile isWS = [] ∨
                ∃ e r2t,
                  ((c :: cs).dropWhile (fun d => !isWS d)).dropWhile isWS =
                    e :: r2t ∧ isWS e = false := by
            cases hrc :
                ((c :: cs).dropWhile (fun d => !isWS d)).dropWhile isWS with
            | nil => exact Or.inl rfl
            | cons e r2t =>
              refine Or.inr ⟨e, r2t, rfl, ?_⟩
              have hW := List.head?_dropWhile_not isWS
                ((c :: cs).dropWhile (fun d => !isWS d))
              rw [hrc] at hW
              exact hW
          have h3 : collapseWS ((c :: cs).dropWhile (fun d => !isWS d)) =
              ' ' :: collapseWS
                (((c :: cs).dropWhile (fun d => !isWS d)).dropWhile isWS) := by
            conv_lhs => rw [← hsplit2]
            exact collapseWS_wsrun _ _ hu2_ne hu2_all hr2_shape
          have h4 : jsWords ((c :: cs).dropWhile (fun d => !isWS d)) =
              jsWords
                (((c :: cs).dropWhile (fun d => !isWS d)).dropWhile isWS) := by
            conv_lhs => rw [← hsplit2]
            exact jsWords_wsrun _ _ hu2_all
          have hr2len :
              (((c :: cs).dropWhile (fun d => !isWS d)).dropWhile isWS).length
                ≤ n :=
            Nat.le_trans (length_dropWhile_le isWS _) hrlen
          rcases hr2_shape with h20 | ⟨e, r2t, hr2e, hee⟩
          · rw [h3, h20]
            rw [show collapseWS ([] : List Char) = [] from rfl]
            rw [show trimRight [' '] = [] from rfl, if_pos rfl]
            rw [h4, h20]
            rfl
          · have h5 : collapseWS
                (((c :: cs).dropWhile (fun d => !isWS d)).dropWhile isWS) =
                e :: collapseWS r2t := by
              rw [hr2e]
              exact collapseWS_cons_nonws e r2t hee
            have h6 : trimRight (collapseWS
                (((c :: cs).dropWhile (fun d => !isWS d)).dropWhile isWS))
                ≠ [] := by
              rw [h5]
              exact trimRight_ne_nil_of_head e _ hee
            have h7 : trimRight (collapseWS
                ((c :: cs).dropWhile (fun d => !isWS d))) =
                ' ' :: trimRight (collapseWS
                  (((c :: cs).dropWhile (fun d => !isWS d)).dropWhile isWS)) := by
              rw [h3]
              rw [show (' ' :: collapseWS
                  (((c :: cs).dropWhile (fun d => !isWS d)).dropWhile isWS)) =
                [' '] ++ collapseWS
                  (((c :: cs).dropWhile (fun d => !isWS d)).dropWhile isWS)
                from rfl]
              rw [trimRight_append, if_neg h6]
              rfl
            have h8 : trimWS (collapseWS
                (((c :: cs).dropWhile (fun d => !isWS d)).dropWhile isWS)) =
                trimRight (collapseWS
                  (((c :: cs).dropWhile (fun d => !isWS d)).dropWhile isWS)) := by
              rw [trimWS_def2, h5,
                List.dropWhile_cons_of_neg (by rw [hee]; simp)]
            have h9 := ih _ hr2len
            rw [h8] at h9
            have h10 : jsWords
                (((c :: cs).dropWhile (fun d => !isWS d)).dropWhile isWS)
                ≠ [] := by
              rw [hr2e]
              exact jsWords_ne_nil e r2t hee
            rw [h7, if_neg (by simp), h4, joinSpace_cons_ne _ _ h10, h9]

theorem collapseWS_no_nl (l : List Char) : '\n' ∉ collapseWS l := by
  induction l with
  | nil => simp [collapseWS]
  | cons c cs ih =>
    by_cases hc : isWS c = true
    · cases cs with
      | nil =>
        rw [collapseWS_singleton_ws c hc]
        simp
      | cons d ds =>
        by_cases hd : isWS d = true
        · rw [collapseWS_cons_ws_ws c d ds hc hd]
          exact ih
        · rw [collapseWS_cons_ws_nonws c d ds hc
            (by revert hd; cases isWS d <;> simp)]
          intro hmem
          rcases List.mem_cons.mp hmem with h1 | h1
          · exact absurd h1 (by decide)
          · exact ih h1
    · rw [collapseWS_cons_nonws c cs (by revert hc; cases isWS c <;> simp)]
      intro hmem
      rcases List.mem_cons.mp hmem with h1 | h1
      · rw [← h1] at hc
        exact hc (by decide)
      · exact ih h1

theorem replaceNNGo_no_nl (n : Nat) :
    ∀ l : List Char, '\n' ∉ l → replaceNNGo n l = l := by
  induction n with
  | zero =>
    intro l _
    cases l <;> rfl
  | succ n ih =>
    intro l hl
    cases l with
    | nil => rfl
    | cons c cs =>
      have hc : ¬ c = '\n' := fun h => hl (h ▸ List.mem_cons_self c cs)
      show (if c = '\n' then
          match lastNLIndex (cs.takeWhile isWS) with
          | some j => '\n' :: replaceNNGo n (cs.drop (j + 1))
          | none => c :: replaceNNGo n cs
        else c :: replaceNNGo n cs) = c :: cs
      rw [if_neg hc, ih cs (fun h => hl (List.mem_cons_of_mem c h))]

theorem replaceNN_no_nl (l : List Char) (h : '\n' ∉ l) : replaceNN l = l :=
  replaceNNGo_no_nl l.length l h

theorem chain_eq_joinSpace (l : List Char) :
    trimWS (replaceNN (collapseWS l)) = joinSpace (jsWords l) := by
  rw [replaceNN_no_nl _ (collapseWS_no_nl l)]
  exact trim_collapse_aux l.length l (Nat.le_refl _)

theorem cleanTextContent_eq (l : List Char) :
    cleanTextContent l = joinSpace (jsWords l) := by
  unfold cleanTextContent
  split
  · rename_i h
    subst h
    rfl
  · exact chain_eq_joinSpace l

/-- C4 counterexample: on the input `a`, newline, newline, `b` the source
normalizer produces `a b`, while the spec describes `a`, newline, `b`:
the paragraph boundary is not preserved, because the first substitution
has already replaced all newlines by spaces when the second runs. -/
theorem normalize_paragraph_counterexample :
    cleanTextContent ('a' :: '\n' :: '\n' :: ['b']) = 'a' :: ' ' :: ['b'] ∧
      specNormalize ('a' :: '\n' :: '\n' :: ['b']) = 'a' :: '\n' :: ['b'] ∧
      cleanTextContent ('a' :: '\n' :: '\n' :: ['b']) ≠
        specNormalize ('a' :: '\n' :: '\n' :: ['b']) := by
  refine ⟨by decide, by decide, by decide⟩

/-- C4 (amended).  Normalizer semantics: `cleanTextContent` collapses
every whitespace run - paragraph boundaries of two or more newlines
included - to a single space and trims; equivalently, it returns the
whitespace-delimited words of its input joined by single spaces.  No
newline survives: the newline-preserving substitution is dead code since
it runs after all whitespace has been collapsed to spaces. -/
theorem normalize_collapses_all_whitespace (text : List Char) :
    cleanTextContent text = joinSpace (jsWords text) :=
  cleanTextContent_eq text

theorem jsWords_words_aux :
    ∀ n : Nat, ∀ l : List Char, l.length ≤ n →
      ∀ w ∈ jsWords l, w ≠ [] ∧ ∀ c ∈ w, isWS c = false := by
  intro n
  induction n with
  | zero =>
    intro l hl
    have h0 : l = [] := List.length_eq_zero.mp (Nat.le_zero.mp hl)
    subst h0
    intro w hw
    exact absurd hw (List.not_mem_nil w)
  | succ n ih =>
    intro l hl
    cases l with
    | nil =>
      intro w hw
      exact absurd hw (List.not_mem_nil w)
    | cons c cs =>
      by_cases hc : isWS c = true
      · rw [jsWords_cons_ws c cs hc]
        exact ih cs (Nat.le_of_succ_le_succ hl)
      · have hc2 : isWS c = false := by revert hc; cases isWS c <;> simp
        have hsplit :=
          List.takeWhile_append_dropWhile (fun d => !isWS d) (c :: cs)
        have hw_all :
            ∀ d ∈ (c :: cs).takeWhile (fun d => !isWS d), isWS d = false := by
          intro d hd
          have hq := List.mem_takeWhile_imp hd
          revert hq
          cases isWS d <;> simp
        have hw_ne : (c :: cs).takeWhile (fun d => !isWS d) ≠ [] := by
          rw [List.takeWhile_cons_of_pos (by rw [hc2]; rfl)]
          simp
        have hr_shape : (c :: cs).dropWhile (fun d => !isWS d) = [] ∨
            ∃ d rr, (c :: cs).dropWhile (fun d => !isWS d) = d :: rr ∧
              isWS d = true := by
          cases hrc : (c :: cs).dropWhile (fun d => !isWS d) with
          | nil => exact Or.inl rfl
          | cons d rr =>
            refine Or.inr ⟨d, rr, rfl, ?_⟩
            have hW := List.head?_dropWhile_not (fun d => !isWS d) (c :: cs)
            rw [hrc] at hW
            have hW2 : (!isWS d) = false := hW
            revert hW2
            cases isWS d <;> simp
        have h2 : jsWords (c :: cs) =
            (c :: cs).takeWhile (fun d => !isWS d) ::
              jsWords ((c :: cs).dropWhile (fun d => !isWS d)) := by
          conv_lhs => rw [← hsplit]
          exact jsWords_word _ _ hw_ne hw_all hr_shape
        have hrlen : ((c :: cs).dropWhile (fun d => !isWS d)).length ≤ n := by
          rw [List.dropWhile_cons_of_pos (by rw [hc2]; rfl)]
          exact Nat.le_trans (length_dropWhile_le _ cs)
            (Nat.le_of_succ_le_succ hl)
        rw [h2]
        intro w hw
        rcases List.mem_cons.mp hw with rfl | hw2
        · exact ⟨hw_ne, hw_all⟩
        · exact ih _ hrlen w hw2

theorem jsWords_joinSpace (ws : List (List Char))
    (h : ∀ w ∈ ws, w ≠ [] ∧ ∀ c ∈ w, isWS c = false) :
    jsWords (joinSpace ws) = ws := by
  induction ws with
  | nil => rfl
  | cons w ws2 ih =>
    have hw := h w (List.mem_cons_self _ _)
    cases ws2 with
    | nil =>
      show jsWords w = [w]
      have hj := jsWords_word w [] hw.1 hw.2 (Or.inl rfl)
      simpa using hj
    | cons w2 ws3 =>
      show jsWords (w ++ ' ' :: joinSpace (w2 :: ws3)) = w :: w2 :: ws3
      rw [jsWords_word w _ hw.1 hw.2
        (Or.inr ⟨' ', joinSpace (w2 :: ws3), rfl, by decide⟩)]
      rw [jsWords_cons_ws ' ' _ (by decide)]
      rw [ih (fun u hu => h u (List.mem_cons_of_mem w hu))]

/-- C5 counterexample: `filterNavigationContent` is not idempotent.  On
the input `dashdashboard coursesboard courses` the first pass removes the
inner `dashboard ... courses` match, splicing the surrounding characters
into a fresh `dashboard courses` match that only the second pass
removes. -/
theorem stripBoilerplate_not_idempotent :
    filterNavigationContent
        (filterNavigationContent ("dashdashboard coursesboard courses".toList))
      ≠ filterNavigationContent ("dashdashboard coursesboard courses".toList) := by
  decide

/-- C5 (amended).  Idempotence holds for the normalizer:
`cleanTextContent` applied to its own output returns that output
unchanged.  (The companion identity claimed for the navigation filter
fails; see the counterexample.) -/
theorem normalize_idempotent (x : List Char) :
    cleanTextContent (cleanTextContent x) = cleanTextContent x := by
  rw [cleanTextContent_eq x, cleanTextContent_eq (joinSpace (jsWords x)),
    jsWords_joinSpace (jsWords x) (jsWords_words_aux x.length x (Nat.le_refl _))]

/-- C8 (amended).  Fallback guarantee: when every selector text is at or
under the 20-character threshold and every fallback text is absent or at
or under the 50-character threshold, the legacy `extractPageContent`
returns the whitespace-normalized document title - the literal
`No content found` when the title is the empty string.  The body equals
the title itself only when the title is already normalized; a
whitespace-only title yields an empty body (see the counterexample). -/
theorem extract_falls_back_to_title (selTexts : List (List Char))
    (fbTexts : List (Option (List Char))) (title : List Char)
    (h1 : ∀ t ∈ selTexts, (trimWS t).length ≤ 20)
    (h2 : ∀ o ∈ fbTexts, ∀ t, o = some t → (trimWS t).length ≤ 50) :
    extractPageContent selTexts fbTexts title =
      if title = [] then noContentFound else joinSpace (jsWords title) := by
  unfold extractPageContent
  rw [legacySelectorContent_nil selTexts h1, legacyFallback_none fbTexts h2]
  show trimWS (replaceNN (collapseWS
      (if title = [] then noContentFound else title))) =
    if title = [] then noContentFound else joinSpace (jsWords title)
  by_cases ht : title = []
  · rw [if_pos ht, if_pos ht]
    decide
  · rw [if_neg ht, if_neg ht]
    exact chain_eq_joinSpace title

/-- Witness for C8 (amended) at concrete below-threshold inputs and a
title with irregular spacing. -/
theorem extract_falls_back_to_title_witness :
    (∀ t ∈ (["Home".toList] : List (List Char)), (trimWS t).length ≤ 20) ∧
      extractPageContent ["Home".toList] [none, some ("Menu".toList)]
          ("My  Course   Page".toList) =
        if ("My  Course   Page".toList : List Char) = [] then noContentFound
        else joinSpace (jsWords ("My  Course   Page".toList)) :=
  ⟨by decide,
    extract_falls_back_to_title ["Home".toList] [none, some ("Menu".toList)]
      ("My  Course   Page".toList) (by decide)
      (by
        intro o ho t ht
        rcases List.mem_cons.mp ho with rfl | ho2
        · exact Option.noConfusion ht
        · rcases List.mem_cons.mp ho2 with rfl | ho3
          · cases ht
            decide
          · exact absurd ho3 (List.not_mem_nil o))⟩
